import Mathlib

set_option linter.unusedVariables false
set_option linter.unnecessarySeqFocus false

/-!
Shallow embedding of the interview-scheduler browser client
(static/app.js): the capacity model and classification computed in
updateStats, the breaks normalization and students_used reconciliation
performed by generateSchedule, the schedule cell projection of
displaySchedule, and the debounced-save timers.  Machine numbers are
modelled as Int (JS numbers on the ranges exercised here are exact
integers); DOM access is modelled by passing the already-parsed input
values as arguments.
-/

/-- A local student row: entries of the `students` array, `{id, name, target}`. -/
structure Student where
  id : Nat
  name : String
  target : Int
deriving DecidableEq

/-- An entry of the `students_used` list of a solver response: `{name, target}`. -/
structure ServerStudent where
  name : String
  target : Int
deriving DecidableEq

/-- Derived capacity range shown by updateStats: `capacityMin`/`capacityMax`. -/
structure CapacityRange where
  low : Int
  high : Int
deriving DecidableEq

/-- Outcome of the demand-vs-capacity comparison in updateStats
(the three branches of the capacity summary). -/
inductive Classification where
  | Sufficient
  | TightFit
  | Deficit (amount : Int)
deriving DecidableEq

/-- Break policy as entered in the form: breaks-min, breaks-max and the
breaks-flexible checkbox. -/
structure BreakPolicy where
  min : Int
  max : Int
  flexible : Bool
deriving DecidableEq

/-- Capacity computation of updateStats (app.js lines 663-672):
`breaksMax` is `breaks-max` when flexible, else `breaks-min`
(no clamping happens here), then
`capacityMin = totalInterviewers * (numSlots - breaksMax)` and
`capacityMax = totalInterviewers * (numSlots - breaksMin)`. -/
def updateStatsCapacity (totalInterviewers numSlots : Int) (b : BreakPolicy) : CapacityRange :=
  { low := totalInterviewers * (numSlots - (if b.flexible then b.max else b.min))
    high := totalInterviewers * (numSlots - b.min) }

/-- Classification of demand against capacity (updateStats lines 718-736):
with `optimisticDiff = capacityMax - totalDemand` and
`pessimisticDiff = capacityMin - totalDemand`, the summary is Sufficient
when `pessimisticDiff >= 0`, TightFit when `optimisticDiff >= 0`, and
otherwise a deficit of `Math.abs(optimisticDiff)` slots. -/
def classify (totalDemand : Int) (cap : CapacityRange) : Classification :=
  if 0 ≤ cap.low - totalDemand then Classification.Sufficient
  else if 0 ≤ cap.high - totalDemand then Classification.TightFit
  else Classification.Deficit |cap.high - totalDemand|

/-- Breaks fields of the solver payload built by generateSchedule
(app.js lines 796-801): `breaksMax` is the entered maximum when flexible
(else `breaksMin`), then clamped up to `breaksMin` when smaller. -/
def solveRequestBreaks (breaksMin breaksMaxInput : Int) (isFlexible : Bool) : Int × Int :=
  (breaksMin,
    if (if isFlexible then breaksMaxInput else breaksMin) < breaksMin then breaksMin
    else (if isFlexible then breaksMaxInput else breaksMin))

/-- One step of the reconciliation loop of generateSchedule
(app.js lines 838-843): `students.find(s => s.name === serverStudent.name)`
finds the first local student with the given name, and its target is
overwritten with the server target. -/
def applyEntry : List Student → ServerStudent → List Student
  | [], _ => []
  | s :: rest, e =>
    if s.name = e.name then { s with target := e.target } :: rest
    else s :: applyEntry rest e

/-- Reconciliation of a `students_used` list (app.js lines 837-845):
`result.students_used.forEach(...)` applies the entries in order. -/
def reconcile (students : List Student) (used : List ServerStudent) : List Student :=
  used.foldl applyEntry students

/-- Target carried by the last `students_used` entry bearing a given name,
if any.  Later entries of the forEach overwrite earlier ones, so the last
matching entry decides the final target of the first matching student. -/
def lastTargetFor : List ServerStudent → String → Option Int
  | [], _ => none
  | e :: us, n =>
    match lastTargetFor us n with
    | some t => some t
    | none => if e.name = n then some e.target else none

/-- Overwrite the target of a student with an optional server value. -/
def updTarget (s : Student) (o : Option Int) : Student :=
  { s with target := o.getD s.target }

/-- A solver response as consumed by generateSchedule: `success`,
`schedule` (student name to slot row), `seed_used`,
`interviewer_assignments`, optional `students_used`, and `error`. -/
structure InterviewerAssignment where
  name : String
  id : String
  break_slot : String
deriving DecidableEq

/-- Schedule mapping: student name to the ordered slot row
(null = break). -/
def Schedule := List (String × List (Option String))

structure SolveResult where
  success : Bool
  schedule : List (String × List (Option String))
  seed_used : Int
  interviewer_assignments : List InterviewerAssignment
  students_used : Option (List ServerStudent)
  error : String

/-- The client state touched by the solve round-trip. `displayedError`
records the message handed to showError. -/
structure AppState where
  students : List Student
  currentSchedule : Option (List (String × List (Option String)))
  lastSeedUsed : Option Int
  lastResult : Option SolveResult
  displayedError : Option String

/-- Response handling of generateSchedule (app.js lines 830-850): on
success the schedule, seed and result are replaced and `students_used`
(when present) is reconciled into the local students; on failure only
showError(result.error) runs and no state is mutated. -/
def handleSolveResponse (st : AppState) (result : SolveResult) : AppState :=
  if result.success then
    { st with
      currentSchedule := some result.schedule
      lastSeedUsed := some result.seed_used
      lastResult := some result
      students :=
        match result.students_used with
        | some used => reconcile st.students used
        | none => st.students }
  else
    { st with displayedError := some result.error }

/-- Lookup of the display id for an interviewer name (displaySchedule,
app.js lines 884-889): `nameToId[inv.name] = inv.id` is assigned for each
entry in order, so a later entry with the same name overwrites an earlier
one and the last matching entry wins. -/
def nameToIdLookup (invs : List InterviewerAssignment) (n : String) : Option String :=
  ((invs.filter fun i => i.name = n).getLast?).map fun i => i.id

/-- Text of one schedule cell (displaySchedule, app.js lines 902-914).
A falsy slot value (null, modelled as none, or the empty string) renders
Break; otherwise the interviewer name is shown, replaced by its display
id exactly when the view mode is id and `nameToId[s]` is truthy (present
and non-empty).  HTML escaping is rendering glue and is omitted. -/
def cellDisplay (viewModeIsId : Bool) (invs : List InterviewerAssignment)
    (cell : Option String) : String :=
  match cell with
  | none => "Break"
  | some s =>
    if s = "" then "Break"
    else if viewModeIsId then
      match nameToIdLookup invs s with
      | some dispId => if dispId = "" then s else dispId
      | none => s
    else s

/-- The two module-level debounce timeout variables (app.js lines 22-24).
A set timer is modelled by the id of the entity whose save it will issue;
clearTimeout followed by setTimeout is modelled by overwriting the slot. -/
structure TimerState where
  studentTimer : Option Nat
  interviewerTimer : Option Nat
deriving DecidableEq

/-- debouncedSaveStudent (app.js lines 413-417): clears the single shared
student timeout and schedules saveStudent(studentId) after 500 ms. -/
def debouncedSaveStudent (ts : TimerState) (studentId : Nat) : TimerState :=
  { ts with studentTimer := some studentId }

/-- debouncedSaveInterviewer (app.js lines 561-564): clears the single
shared interviewer timeout and schedules saveInterviewer after 500 ms. -/
def debouncedSaveInterviewer (ts : TimerState) (interviewerId : Nat) : TimerState :=
  { ts with interviewerTimer := some interviewerId }

/-- The debounce delay used by both setTimeout calls. -/
def debounceDelayMs : Nat := 500

/-- Body written by saveStudent when the timer fires (app.js lines
419-430): the student is looked up in the `students` array at fire time,
so the PUT carries the latest in-memory name and target. -/
def saveStudentPayload (students : List Student) (studentId : Nat) :
    Option (String × Int) :=
  (students.find? fun s => s.id = studentId).map fun s => (s.name, s.target)

/-- Number of students whose target equals t: the value stored at key t
of the `counts` object built by updateStats (app.js lines 688-691). -/
def countTarget (students : List Student) (t : Int) : Nat :=
  (students.filter fun s => s.target = t).length

/-- The distinct target values in ascending order: Object.entries iterates
the integer-like keys of `counts` in ascending numeric order. -/
def targetKeys (students : List Student) : List Int :=
  List.insertionSort (fun a b => a ≤ b) (students.map fun s => s.target).dedup

/-- One iteration of the most-frequent-target loop of updateStats
(app.js lines 693-708) over an accumulator (modeTarget, maxFreq) and an
entry (t, freq). -/
def modeStep (d : Int) : Int × Nat → Int × Nat → Int × Nat
  | (modeTarget, maxFreq), (t, freq) =>
    if maxFreq < freq then (t, freq)
    else if freq = maxFreq then
      if t = d then (t, maxFreq)
      else if ¬ modeTarget = d ∧ modeTarget < t then (t, maxFreq)
      else (modeTarget, maxFreq)
    else (modeTarget, maxFreq)

/-- The most frequent target reported by updateStats (app.js lines
685-715): modeTarget starts at the configured default d with maxFreq 0
and the entries (target, count) are folded in ascending key order; with
no students the default is reported. -/
def mostFrequentTarget (d : Int) (students : List Student) : Int :=
  if students.length = 0 then d
  else (((targetKeys students).map fun t => (t, countTarget students t)).foldl
    (modeStep d) (d, 0)).1

/-- Invariant of the most-frequent-target fold: after processing the set
seen of keys, the accumulator is either untouched (nothing processed) or
holds the maximal count F over seen together with a mode value that is
the default d whenever d is among the argmax keys of seen, and the
largest argmax key otherwise. -/
def modeInv (students : List Student) (d : Int) (seen : List Int) : Int × Nat → Prop
  | (mode, freq) =>
    (seen = [] ∧ mode = d ∧ freq = 0) ∨
    ((∃ u, u ∈ seen ∧ countTarget students u = freq) ∧
     (∀ u, u ∈ seen → countTarget students u ≤ freq) ∧
     ((d ∈ seen ∧ countTarget students d = freq ∧ mode = d) ∨
      (mode ∈ seen ∧ countTarget students mode = freq ∧
       (d ∈ seen → countTarget students d < freq) ∧
       (∀ u, u ∈ seen → countTarget students u = freq → u ≤ mode))))

/-- Claim C1: for low <= high the classification is total and exclusive:
Sufficient exactly when demand <= low, TightFit exactly when
low < demand <= high, Deficit a exactly when demand > high with
a = demand - high; in particular demand = low is Sufficient and
demand = high + 1 is Deficit 1. -/
theorem classify_partition (demand : Int) (cap : CapacityRange)
    (h : cap.low ≤ cap.high) :
    (classify demand cap = Classification.Sufficient ↔ demand ≤ cap.low) ∧
    (classify demand cap = Classification.TightFit ↔
      (cap.low < demand ∧ demand ≤ cap.high)) ∧
    (∀ a : Int, classify demand cap = Classification.Deficit a ↔
      (cap.high < demand ∧ a = demand - cap.high)) ∧
    classify cap.low cap = Classification.Sufficient ∧
    classify (cap.high + 1) cap = Classification.Deficit 1 := by
  refine ⟨?_, ?_, ?_, ?_, ?_⟩
  · unfold classify
    split_ifs with h1 h2 <;> simp <;> omega
  · unfold classify
    split_ifs with h1 h2 <;> simp <;> omega
  · intro a
    unfold classify
    split_ifs with h1 h2 <;> simp
    · omega
    · omega
    · rw [abs_of_neg (by omega : cap.high - demand < 0)]
      omega
  · unfold classify
    rw [if_pos (by omega : (0:Int) ≤ cap.low - cap.low)]
  · unfold classify
    rw [if_neg (by omega : ¬ (0:Int) ≤ cap.low - (cap.high + 1)),
      if_neg (by omega : ¬ (0:Int) ≤ cap.high - (cap.high + 1))]
    have hd : |cap.high - (cap.high + 1)| = (1:Int) := by
      rw [abs_of_neg (by omega : cap.high - (cap.high + 1) < 0)]
      omega
    rw [hd]

theorem classify_partition_witness :
    (3:Int) ≤ 4 ∧ classify 5 ⟨3, 4⟩ = Classification.Deficit 1 :=
  ⟨by decide, ((classify_partition 5 ⟨3, 4⟩ (by decide)).2.2.1 1).mpr (by decide)⟩

/-- Claim C4: for a break policy with min = max whenever it is not
flexible, the updateStats capacity range is
low = interviewerCount * (numSlots - breaks.max),
high = interviewerCount * (numSlots - breaks.min), and the range
collapses to low = high when the policy is not flexible. -/
theorem updateStatsCapacity_formula (n s : Int) (b : BreakPolicy)
    (hb : b.flexible = false → b.min = b.max) :
    (updateStatsCapacity n s b).low = n * (s - b.max) ∧
    (updateStatsCapacity n s b).high = n * (s - b.min) ∧
    (b.flexible = false →
      (updateStatsCapacity n s b).low = (updateStatsCapacity n s b).high) := by
  cases hf : b.flexible
  · have h1 := hb hf
    simp [updateStatsCapacity, hf, h1]
  · simp [updateStatsCapacity, hf]

theorem updateStatsCapacity_formula_witness :
    ((⟨1, 1, false⟩ : BreakPolicy).flexible = false →
      (⟨1, 1, false⟩ : BreakPolicy).min = (⟨1, 1, false⟩ : BreakPolicy).max) ∧
    ((updateStatsCapacity 2 13 ⟨1, 1, false⟩).low = 2 * (13 - 1) ∧
     (updateStatsCapacity 2 13 ⟨1, 1, false⟩).high = 2 * (13 - 1) ∧
     ((⟨1, 1, false⟩ : BreakPolicy).flexible = false →
       (updateStatsCapacity 2 13 ⟨1, 1, false⟩).low =
         (updateStatsCapacity 2 13 ⟨1, 1, false⟩).high)) :=
  ⟨fun _ => rfl, updateStatsCapacity_formula 2 13 ⟨1, 1, false⟩ (fun _ => rfl)⟩

/-- Claim C5 counterexample: updateStats does not clamp the entered
breaks.max.  With one interviewer, 13 slots, breaks.min = 3,
breaks.max = 1 and the flexible box checked, the displayed range is
low = 12, high = 10, so low <= high fails, refuting the claim that
breaks.max is normalized before any use. -/
theorem updateStats_unclamped_cex :
    (updateStatsCapacity 1 13 ⟨3, 1, true⟩).low = 12 ∧
    (updateStatsCapacity 1 13 ⟨3, 1, true⟩).high = 10 ∧
    ¬ (updateStatsCapacity 1 13 ⟨3, 1, true⟩).low ≤
        (updateStatsCapacity 1 13 ⟨3, 1, true⟩).high := by
  refine ⟨rfl, rfl, by decide⟩

/-- Claim C5 (amended): only generateSchedule normalizes the breaks
maximum: the solver payload always carries
breaks_max = max(effective entered maximum, breaks_min), hence
breaks_min <= breaks_max; the capacity range of updateStats satisfies
low <= high only under a non-negative interviewer count and an effective
breaks maximum that is at least breaks.min. -/
theorem solveRequestBreaks_clamped :
    (∀ (m M : Int) (f : Bool),
      (solveRequestBreaks m M f).1 ≤ (solveRequestBreaks m M f).2 ∧
      (solveRequestBreaks m M f).2 = max (if f then M else m) m) ∧
    (∀ (n s : Int) (b : BreakPolicy), 0 ≤ n →
      b.min ≤ (if b.flexible then b.max else b.min) →
      (updateStatsCapacity n s b).low ≤ (updateStatsCapacity n s b).high) := by
  constructor
  · intro m M f
    cases f <;> simp [solveRequestBreaks] <;> split_ifs <;>
      simp [max_def] <;> split_ifs <;> omega
  · intro n s b hn hb
    cases hf : b.flexible <;> rw [hf] at hb <;> simp at hb <;>
      simp [updateStatsCapacity, hf]
    exact mul_le_mul_of_nonneg_left (by omega) hn

theorem solveRequestBreaks_clamped_witness :
    ((solveRequestBreaks 3 1 true).1 ≤ (solveRequestBreaks 3 1 true).2 ∧
      (solveRequestBreaks 3 1 true).2 = max (if true then (1:Int) else 3) 3) ∧
    ((0:Int) ≤ 1 ∧
      (⟨1, 2, true⟩ : BreakPolicy).min ≤
        (if (⟨1, 2, true⟩ : BreakPolicy).flexible then
          (⟨1, 2, true⟩ : BreakPolicy).max else (⟨1, 2, true⟩ : BreakPolicy).min) ∧
      (updateStatsCapacity 1 13 ⟨1, 2, true⟩).low ≤
        (updateStatsCapacity 1 13 ⟨1, 2, true⟩).high) :=
  ⟨solveRequestBreaks_clamped.1 3 1 true,
   by decide, by decide,
   solveRequestBreaks_clamped.2 1 13 ⟨1, 2, true⟩ (by decide) (by decide)⟩

/-- Claim C6: on a response with success false the client only calls
showError with the provided message: students, currentSchedule,
lastSeedUsed and lastResult are all left unchanged and the surfaced
message is exactly result.error. -/
theorem solverFailure_no_mutation (st : AppState) (r : SolveResult)
    (h : r.success = false) :
    (handleSolveResponse st r).students = st.students ∧
    (handleSolveResponse st r).currentSchedule = st.currentSchedule ∧
    (handleSolveResponse st r).lastSeedUsed = st.lastSeedUsed ∧
    (handleSolveResponse st r).lastResult = st.lastResult ∧
    (handleSolveResponse st r).displayedError = some r.error := by
  simp [handleSolveResponse, h]

theorem solverFailure_no_mutation_witness :
    (handleSolveResponse ⟨[], none, none, none, none⟩
        ⟨false, [], 0, [], none, "solver failed"⟩).students = [] ∧
    (handleSolveResponse ⟨[], none, none, none, none⟩
        ⟨false, [], 0, [], none, "solver failed"⟩).displayedError =
      some "solver failed" :=
  ⟨(solverFailure_no_mutation ⟨[], none, none, none, none⟩
      ⟨false, [], 0, [], none, "solver failed"⟩ rfl).1,
   (solverFailure_no_mutation ⟨[], none, none, none, none⟩
      ⟨false, [], 0, [], none, "solver failed"⟩ rfl).2.2.2.2⟩

/-- Claim C9 counterexample: both student debounce timers share the one
module-level studentSaveTimeout variable, so an edit to student 2 while
the save of student 1 is pending cancels and replaces that pending save,
refuting the per-entity-timer claim. -/
theorem debounce_shared_timer_cex :
    (debouncedSaveStudent ⟨some 1, none⟩ 2).studentTimer = some 2 ∧
    ¬ (debouncedSaveStudent ⟨some 1, none⟩ 2).studentTimer = some 1 := by
  decide

/-- Claim C9 (amended): each edit resets a single timer shared by all
entities of the same kind (one for students, one for interviewers) with
a fixed 500 ms delay, so only the most recently edited entity of a kind
has a pending save; an edit to a student leaves the interviewer timer
untouched and vice versa, and the save that fires reads the entity by id
from the current array, hence writes its latest in-memory state. -/
theorem debounce_shared_timer_spec :
    (∀ (ts : TimerState) (sid : Nat),
      (debouncedSaveStudent ts sid).studentTimer = some sid ∧
      (debouncedSaveStudent ts sid).interviewerTimer = ts.interviewerTimer) ∧
    (∀ (ts : TimerState) (iid : Nat),
      (debouncedSaveInterviewer ts iid).interviewerTimer = some iid ∧
      (debouncedSaveInterviewer ts iid).studentTimer = ts.studentTimer) ∧
    (∀ (students : List Student) (sid : Nat) (s : Student),
      students.find? (fun x => x.id = sid) = some s →
      saveStudentPayload students sid = some (s.name, s.target)) ∧
    debounceDelayMs = 500 := by
  refine ⟨fun ts sid => ⟨rfl, rfl⟩, fun ts iid => ⟨rfl, rfl⟩, ?_, rfl⟩
  intro students sid s hfind
  simp [saveStudentPayload, hfind]

theorem debounce_shared_timer_spec_witness :
    ([⟨7, "Ana", 4⟩] : List Student).find? (fun x => x.id = 7) = some ⟨7, "Ana", 4⟩ ∧
    saveStudentPayload [⟨7, "Ana", 4⟩] 7 = some ("Ana", 4) :=
  ⟨by decide, debounce_shared_timer_spec.2.2.1 [⟨7, "Ana", 4⟩] 7 ⟨7, "Ana", 4⟩ (by decide)⟩

theorem reconcile_nil_students (used : List ServerStudent) : reconcile [] used = [] := by
  induction used with
  | nil => rfl
  | cons e us ih => simpa [reconcile, applyEntry] using ih

/-- Head decomposition of the reconciliation fold: the head student ends
with the target of the last matching entry (if any), and the tail is
reconciled against the entries whose name differs from the head name. -/
theorem reconcile_cons (s : Student) (rest : List Student) (used : List ServerStudent) :
    reconcile (s :: rest) used =
      updTarget s (lastTargetFor used s.name) ::
        reconcile rest (used.filter fun e => ¬ e.name = s.name) := by
  induction used generalizing s rest with
  | nil => simp [reconcile, lastTargetFor, updTarget]
  | cons e us ih =>
    by_cases h : s.name = e.name
    · have h1 : applyEntry (s :: rest) e = { s with target := e.target } :: rest := by
        simp [applyEntry, h]
      have h2 : reconcile (s :: rest) (e :: us) =
          reconcile ({ s with target := e.target } :: rest) us := by
        simp [reconcile, h1]
      rw [h2, ih]
      have hn : e.name = s.name := h.symm
      cases hl : lastTargetFor us s.name <;>
        simp [lastTargetFor, hl, hn, updTarget, List.filter_cons]
    · have h1 : applyEntry (s :: rest) e = s :: applyEntry rest e := by
        simp [applyEntry, h]
      have h2 : reconcile (s :: rest) (e :: us) =
          reconcile (s :: applyEntry rest e) us := by
        simp [reconcile, h1]
      have hn : ¬ e.name = s.name := fun hh => h hh.symm
      rw [h2, ih]
      cases hl : lastTargetFor us s.name <;>
        simp [lastTargetFor, hl, hn, List.filter_cons, reconcile]

theorem reconcile_length (ss : List Student) :
    ∀ used, (reconcile ss used).length = ss.length := by
  induction ss with
  | nil => intro used; rw [reconcile_nil_students]
  | cons s rest ih => intro used; rw [reconcile_cons]; simp [ih]

theorem reconcile_get_name (ss : List Student) :
    ∀ (used : List ServerStudent) (i : Nat),
      ((reconcile ss used).get? i).map (fun s => s.name) =
        (ss.get? i).map (fun s => s.name) := by
  induction ss with
  | nil => intro used i; rw [reconcile_nil_students]
  | cons s rest ih =>
    intro used i
    rw [reconcile_cons]
    cases i with
    | zero => cases hl : lastTargetFor used s.name <;> simp [updTarget]
    | succ j => simpa using ih _ j

theorem reconcile_get_id (ss : List Student) :
    ∀ (used : List ServerStudent) (i : Nat),
      ((reconcile ss used).get? i).map (fun s => s.id) =
        (ss.get? i).map (fun s => s.id) := by
  induction ss with
  | nil => intro used i; rw [reconcile_nil_students]
  | cons s rest ih =>
    intro used i
    rw [reconcile_cons]
    cases i with
    | zero => cases hl : lastTargetFor used s.name <;> simp [updTarget]
    | succ j => simpa using ih _ j

theorem lastTargetFor_filter_none (us : List ServerStudent)
    (p : ServerStudent → Bool) (n : String) (h : lastTargetFor us n = none) :
    lastTargetFor (us.filter p) n = none := by
  induction us with
  | nil => rfl
  | cons e us ih =>
    have h1 : lastTargetFor us n = none := by
      cases hl : lastTargetFor us n with
      | none => rfl
      | some t => rw [lastTargetFor, hl] at h; exact absurd h (by simp)
    have h2 : ¬ e.name = n := by
      intro hh
      rw [lastTargetFor, h1, if_pos hh] at h
      exact absurd h (by simp)
    rw [List.filter_cons]
    by_cases hp : p e
    · simp only [hp, if_pos]
      rw [lastTargetFor, ih h1, if_neg h2]
    · simp only [hp]
      simpa using ih h1

theorem lastTargetFor_filter_ne (us : List ServerStudent) (m n : String)
    (h : ¬ m = n) :
    lastTargetFor (us.filter fun e => ¬ e.name = m) n = lastTargetFor us n := by
  induction us with
  | nil => rfl
  | cons e us ih =>
    by_cases he : e.name = m
    · have hen : ¬ e.name = n := by rw [he]; exact h
      rw [List.filter_cons_of_neg (by simp [he])]
      rw [ih]
      cases hl : lastTargetFor us n <;> simp [lastTargetFor, hl, hen]
    · rw [List.filter_cons_of_pos (by simp [he])]
      simp only [lastTargetFor]
      rw [ih]

theorem lastTargetFor_filter_self (us : List ServerStudent) (n : String) :
    lastTargetFor (us.filter fun e => ¬ e.name = n) n = none := by
  induction us with
  | nil => rfl
  | cons e us ih =>
    by_cases he : e.name = n
    · rw [List.filter_cons_of_neg (by simp [he])]
      exact ih
    · rw [List.filter_cons_of_pos (by simp [he])]
      simp only [lastTargetFor]
      rw [ih, if_neg he]

theorem reconcile_get_of_none (ss : List Student) :
    ∀ (used : List ServerStudent) (i : Nat) (s : Student),
      ss.get? i = some s → lastTargetFor used s.name = none →
      (reconcile ss used).get? i = some s := by
  induction ss with
  | nil => intro used i s hs _; simp at hs
  | cons s0 rest ih =>
    intro used i s hs hn
    rw [reconcile_cons]
    cases i with
    | zero =>
      simp only [List.get?_cons_zero, Option.some.injEq] at hs
      subst hs
      simp [updTarget, hn]
    | succ j =>
      simp only [List.get?_cons_succ] at hs ⊢
      exact ih _ j s hs (lastTargetFor_filter_none _ _ _ hn)

theorem reconcile_get_first_match (ss : List Student) :
    ∀ (used : List ServerStudent) (i : Nat) (s : Student) (t : Int),
      ss.get? i = some s →
      (∀ j s', j < i → ss.get? j = some s' → ¬ s'.name = s.name) →
      lastTargetFor used s.name = some t →
      (reconcile ss used).get? i = some { s with target := t } := by
  induction ss with
  | nil => intro used i s t hs _ _; simp at hs
  | cons s0 rest ih =>
    intro used i s t hs hfirst hl
    rw [reconcile_cons]
    cases i with
    | zero =>
      simp only [List.get?_cons_zero, Option.some.injEq] at hs
      subst hs
      simp [updTarget, hl]
    | succ j =>
      have h0 : ¬ s0.name = s.name :=
        hfirst 0 s0 (Nat.succ_pos j) (by simp)
      simp only [List.get?_cons_succ] at hs ⊢
      refine ih _ j s t hs ?_ ?_
      · intro k s' hk hs'
        exact hfirst (k + 1) s' (Nat.succ_lt_succ hk) (by simpa using hs')
      · rw [lastTargetFor_filter_ne _ _ _ h0]
        exact hl

theorem reconcile_get_dup (ss : List Student) :
    ∀ (used : List ServerStudent) (i j : Nat) (s s' : Student),
      j < i → ss.get? i = some s → ss.get? j = some s' → s'.name = s.name →
      (reconcile ss used).get? i = some s := by
  induction ss with
  | nil => intro used i j s s' hj hi _ _; simp at hi
  | cons s0 rest ih =>
    intro used i j s s' hj hi hjget hname
    cases i with
    | zero => exact absurd hj (Nat.not_lt_zero j)
    | succ i' =>
      rw [reconcile_cons]
      simp only [List.get?_cons_succ] at hi ⊢
      cases j with
      | zero =>
        simp only [List.get?_cons_zero, Option.some.injEq] at hjget
        have h0name : s0.name = s.name := by rw [hjget]; exact hname
        refine reconcile_get_of_none rest _ i' s hi ?_
        rw [← h0name]
        exact lastTargetFor_filter_self used s0.name
      | succ j' =>
        exact ih _ i' j' s s' (Nat.lt_of_succ_lt_succ hj) hi hjget hname

theorem lastTargetFor_eq_none_iff (us : List ServerStudent) (n : String) :
    lastTargetFor us n = none ↔ ∀ e, e ∈ us → ¬ e.name = n := by
  induction us with
  | nil => simp [lastTargetFor]
  | cons e us ih =>
    cases hl : lastTargetFor us n with
    | some t =>
      rw [lastTargetFor, hl]
      simp only [false_iff, List.mem_cons]
      constructor
      · intro h; exact absurd h (by simp)
      · intro h
        have : ∀ e', e' ∈ us → ¬ e'.name = n := fun e' he' => h e' (Or.inr he')
        rw [ih.mpr this] at hl
        exact absurd hl (by simp)
    | none =>
      rw [lastTargetFor, hl]
      by_cases he : e.name = n
      · rw [if_pos he]
        simp only [List.mem_cons]
        constructor
        · intro h; exact absurd h (by simp)
        · intro h; exact absurd he (h e (Or.inl rfl))
      · rw [if_neg he]
        simp only [List.mem_cons, true_iff]
        intro e' he'
        rcases he' with rfl | he'
        · exact he
        · exact ih.mp hl e' he'

/-- Claim C2 counterexample: with two local students both named A (targets
1 and 2) and students_used = [(A, 9)], the code updates only the first
match: the resulting targets are [9, 2], not [9, 9] as predicted by the
claim that every matching student receives the entry target. -/
theorem reconcile_duplicate_cex :
    (reconcile [⟨1, "A", 1⟩, ⟨2, "A", 2⟩] [⟨"A", 9⟩]).map (fun s => s.target) =
      [9, 2] ∧
    ¬ ([(9 : Int), 2] = [9, 9]) := by
  refine ⟨rfl, by decide⟩

/-- Claim C2 (amended): on a success response carrying students_used, the
local students become reconcile(students, used); a student whose name
matches no entry keeps its target (at every position), and the first
student in array order bearing a matching name receives the target of the
last entry bearing that name. -/
theorem generateSchedule_reconciliation (st : AppState) (r : SolveResult)
    (used : List ServerStudent)
    (hs : r.success = true) (hu : r.students_used = some used) :
    (handleSolveResponse st r).students = reconcile st.students used ∧
    (∀ n, lastTargetFor used n = none ↔ ∀ e, e ∈ used → ¬ e.name = n) ∧
    (∀ i s, st.students.get? i = some s → lastTargetFor used s.name = none →
      (reconcile st.students used).get? i = some s) ∧
    (∀ i s t, st.students.get? i = some s →
      (∀ j s2, j < i → st.students.get? j = some s2 → ¬ s2.name = s.name) →
      lastTargetFor used s.name = some t →
      (reconcile st.students used).get? i = some { s with target := t }) := by
  refine ⟨?_, fun n => lastTargetFor_eq_none_iff used n,
    fun i s hi hn => reconcile_get_of_none st.students used i s hi hn,
    fun i s t hi hf hl => reconcile_get_first_match st.students used i s t hi hf hl⟩
  simp [handleSolveResponse, hs, hu]

theorem generateSchedule_reconciliation_witness :
    (reconcile [⟨1, "A", 1⟩, ⟨2, "B", 2⟩] [⟨"A", 9⟩, ⟨"A", 7⟩]).get? 0 =
      some ⟨1, "A", 7⟩ ∧
    (reconcile [⟨1, "A", 1⟩, ⟨2, "B", 2⟩] [⟨"A", 9⟩, ⟨"A", 7⟩]).get? 1 =
      some ⟨2, "B", 2⟩ := by
  constructor
  · exact (generateSchedule_reconciliation
      ⟨[⟨1, "A", 1⟩, ⟨2, "B", 2⟩], none, none, none, none⟩
      ⟨true, [], 0, [], some [⟨"A", 9⟩, ⟨"A", 7⟩], ""⟩
      [⟨"A", 9⟩, ⟨"A", 7⟩] rfl rfl).2.2.2 0 ⟨1, "A", 1⟩ 7 rfl
      (fun j s2 hj _ => absurd hj (Nat.not_lt_zero j)) rfl
  · exact (generateSchedule_reconciliation
      ⟨[⟨1, "A", 1⟩, ⟨2, "B", 2⟩], none, none, none, none⟩
      ⟨true, [], 0, [], some [⟨"A", 9⟩, ⟨"A", 7⟩], ""⟩
      [⟨"A", 9⟩, ⟨"A", 7⟩] rfl rfl).2.2.1 1 ⟨2, "B", 2⟩ rfl rfl

/-- Claim C3: reconciliation of a students_used list is idempotent --
applying the same list twice gives the same student state as applying it
once. -/
theorem reconcile_idempotent (ss : List Student) (used : List ServerStudent) :
    reconcile (reconcile ss used) used = reconcile ss used := by
  induction ss generalizing used with
  | nil => rw [reconcile_nil_students, reconcile_nil_students]
  | cons s rest ih =>
    rw [reconcile_cons s rest used]
    rw [reconcile_cons (updTarget s (lastTargetFor used s.name)) _ used]
    have hname : (updTarget s (lastTargetFor used s.name)).name = s.name := rfl
    rw [hname]
    refine congrArg₂ _ ?_ (ih _)
    cases hl : lastTargetFor used s.name <;> simp [updTarget, hl]

/-- Claim C10: reconciliation never adds or removes students and never
changes a name or id (at every position), and when an earlier student in
array order has the same name, a later duplicate keeps its prior target
untouched by any students_used list. -/
theorem reconcile_preserves_structure (ss : List Student) (used : List ServerStudent) :
    (reconcile ss used).length = ss.length ∧
    (∀ i, ((reconcile ss used).get? i).map (fun s => s.id) =
      (ss.get? i).map (fun s => s.id)) ∧
    (∀ i, ((reconcile ss used).get? i).map (fun s => s.name) =
      (ss.get? i).map (fun s => s.name)) ∧
    (∀ i j s s2, j < i → ss.get? i = some s → ss.get? j = some s2 →
      s2.name = s.name → (reconcile ss used).get? i = some s) :=
  ⟨reconcile_length ss used,
   fun i => reconcile_get_id ss used i,
   fun i => reconcile_get_name ss used i,
   fun i j s s2 hj hi hjg hn => reconcile_get_dup ss used i j s s2 hj hi hjg hn⟩

theorem reconcile_preserves_structure_witness :
    (reconcile [⟨1, "A", 1⟩, ⟨2, "A", 2⟩] [⟨"A", 9⟩]).get? 1 = some ⟨2, "A", 2⟩ :=
  (reconcile_preserves_structure [⟨1, "A", 1⟩, ⟨2, "A", 2⟩] [⟨"A", 9⟩]).2.2.2
    1 0 ⟨2, "A", 2⟩ ⟨1, "A", 1⟩ (by decide) rfl rfl rfl

/-- Claim C8: for an assigned (truthy) slot cell, the id view shows the
display id whenever interviewer_assignments carries a non-empty id for
that interviewer name and falls back to the interviewer name otherwise
(no entry, or an entry with an empty falsy id); the name view shows the
name; in both view modes the rendered text of an assigned cell is never
blank. -/
theorem cellDisplay_fallback (mode : Bool) (invs : List InterviewerAssignment)
    (cell : Option String) (s : String)
    (hc : cell = some s) (hs : ¬ s = "") :
    (∀ dispId, nameToIdLookup invs s = some dispId → ¬ dispId = "" →
      cellDisplay true invs cell = dispId) ∧
    (nameToIdLookup invs s = none → cellDisplay true invs cell = s) ∧
    (nameToIdLookup invs s = some "" → cellDisplay true invs cell = s) ∧
    cellDisplay false invs cell = s ∧
    ¬ cellDisplay mode invs cell = "" := by
  subst hc
  refine ⟨?_, ?_, ?_, ?_, ?_⟩
  · intro dispId hl hne
    simp [cellDisplay, hs, hl, hne]
  · intro hl
    simp [cellDisplay, hs, hl]
  · intro hl
    simp [cellDisplay, hs, hl]
  · simp [cellDisplay, hs]
  · cases mode
    · simp [cellDisplay, hs]
    · cases hl : nameToIdLookup invs s with
      | none => simp [cellDisplay, hs, hl]
      | some dispId =>
        by_cases hid : dispId = "" <;> simp [cellDisplay, hs, hl, hid]

theorem cellDisplay_fallback_witness :
    cellDisplay true [⟨"Alice", "T1", "None"⟩] (some "Alice") = "T1" ∧
    cellDisplay true [] (some "Bob") = "Bob" ∧
    ¬ cellDisplay false [] (some "Bob") = "" := by
  refine ⟨?_, ?_, ?_⟩
  · exact (cellDisplay_fallback true [⟨"Alice", "T1", "None"⟩] (some "Alice")
      "Alice" rfl (by decide)).1 "T1" rfl (by decide)
  · exact (cellDisplay_fallback true [] (some "Bob") "Bob" rfl (by decide)).2.1 rfl
  · exact (cellDisplay_fallback false [] (some "Bob") "Bob" rfl (by decide)).2.2.2.2

/-- One step preserves the fold invariant: processing an unseen key t
with its true count moves the invariant from seen to t :: seen. -/
theorem modeInv_step (students : List Student) (d : Int) (seen : List Int)
    (m : Int) (F : Nat) (t : Int)
    (ht : ¬ t ∈ seen) (hpos : 1 ≤ countTarget students t)
    (h : modeInv students d seen (m, F)) :
    modeInv students d (t :: seen) (modeStep d (m, F) (t, countTarget students t)) := by
  simp only [modeInv] at h
  rcases h with ⟨hseen, hm, hF⟩ | ⟨⟨u, hu, hCu⟩, hub, hsub⟩
  · -- nothing processed yet: the first entry always wins
    have hlt : F < countTarget students t := by omega
    have hstep : modeStep d (m, F) (t, countTarget students t) =
        (t, countTarget students t) := by
      simp [modeStep, hlt]
    rw [hstep]
    simp only [modeInv]
    right
    refine ⟨⟨t, List.mem_cons_self t seen, rfl⟩, ?_, ?_⟩
    · intro v hv
      rcases List.mem_cons.mp hv with rfl | hv2
      · exact le_refl _
      · rw [hseen] at hv2; simp at hv2
    · by_cases htd : t = d
      · subst htd
        exact Or.inl ⟨List.mem_cons_self t seen, rfl, rfl⟩
      · refine Or.inr ⟨List.mem_cons_self t seen, trivial, ?_, ?_⟩
        · intro hd
          rcases List.mem_cons.mp hd with hdt | hd2
          · exact absurd hdt.symm htd
          · rw [hseen] at hd2; simp at hd2
        · intro v hv hCv
          rcases List.mem_cons.mp hv with rfl | hv2
          · exact le_refl _
          · rw [hseen] at hv2; simp at hv2
  · by_cases h1 : F < countTarget students t
    · -- strictly larger count: t takes over
      have hstep : modeStep d (m, F) (t, countTarget students t) =
          (t, countTarget students t) := by
        simp [modeStep, h1]
      rw [hstep]
      simp only [modeInv]
      right
      refine ⟨⟨t, List.mem_cons_self t seen, rfl⟩, ?_, ?_⟩
      · intro v hv
        rcases List.mem_cons.mp hv with rfl | hv2
        · exact le_refl _
        · exact le_trans (hub v hv2) (Nat.le_of_lt h1)
      · by_cases htd : t = d
        · subst htd
          exact Or.inl ⟨List.mem_cons_self t seen, rfl, rfl⟩
        · refine Or.inr ⟨List.mem_cons_self t seen, trivial, ?_, ?_⟩
          · intro hd
            rcases List.mem_cons.mp hd with hdt | hd2
            · exact absurd hdt.symm htd
            · exact lt_of_le_of_lt (hub d hd2) h1
          · intro v hv hCv
            rcases List.mem_cons.mp hv with rfl | hv2
            · exact le_refl _
            · have := hub v hv2; omega
    · by_cases h2 : countTarget students t = F
      · -- tie at the current maximum
        by_cases h3 : t = d
        · have hstep : modeStep d (m, F) (t, countTarget students t) = (t, F) := by
            simp only [modeStep]
            rw [if_neg h1, if_pos h2, if_pos h3]
          rw [hstep]
          simp only [modeInv]
          right
          refine ⟨⟨u, List.mem_cons_of_mem t hu, hCu⟩, ?_, ?_⟩
          · intro v hv
            rcases List.mem_cons.mp hv with rfl | hv2
            · omega
            · exact hub v hv2
          · subst h3
            exact Or.inl ⟨List.mem_cons_self t seen, h2, rfl⟩
        · rcases hsub with ⟨hdmem, hCd, hmd⟩ | ⟨hmmem, hCm, hdlt, hmax⟩
          · -- the default already holds the mode: nothing changes
            have hstep : modeStep d (m, F) (t, countTarget students t) = (m, F) := by
              simp [modeStep, h1, h2, h3, hmd]
            rw [hstep]
            simp only [modeInv]
            right
            refine ⟨⟨u, List.mem_cons_of_mem t hu, hCu⟩, ?_,
              Or.inl ⟨List.mem_cons_of_mem t hdmem, hCd, hmd⟩⟩
            intro v hv
            rcases List.mem_cons.mp hv with rfl | hv2
            · omega
            · exact hub v hv2
          · have hmd : ¬ m = d := by
              intro he
              by_cases hds : d ∈ seen
              · have := hdlt hds; rw [he] at hCm; omega
              · rw [he] at hmmem; exact hds hmmem
            by_cases h4 : m < t
            · have hstep : modeStep d (m, F) (t, countTarget students t) = (t, F) := by
                simp [modeStep, h1, h2, h3, hmd, h4]
              rw [hstep]
              simp only [modeInv]
              right
              refine ⟨⟨u, List.mem_cons_of_mem t hu, hCu⟩, ?_,
                Or.inr ⟨List.mem_cons_self t seen, h2, ?_, ?_⟩⟩
              · intro v hv
                rcases List.mem_cons.mp hv with rfl | hv2
                · omega
                · exact hub v hv2
              · intro hd
                rcases List.mem_cons.mp hd with hdt | hd2
                · exact absurd hdt.symm h3
                · exact hdlt hd2
              · intro v hv hCv
                rcases List.mem_cons.mp hv with rfl | hv2
                · exact le_refl _
                · exact le_trans (hmax v hv2 hCv) (le_of_lt h4)
            · have hstep : modeStep d (m, F) (t, countTarget students t) = (m, F) := by
                simp [modeStep, h1, h2, h3, hmd, h4]
              rw [hstep]
              simp only [modeInv]
              right
              refine ⟨⟨u, List.mem_cons_of_mem t hu, hCu⟩, ?_,
                Or.inr ⟨List.mem_cons_of_mem t hmmem, hCm, ?_, ?_⟩⟩
              · intro v hv
                rcases List.mem_cons.mp hv with rfl | hv2
                · omega
                · exact hub v hv2
              · intro hd
                rcases List.mem_cons.mp hd with hdt | hd2
                · exact absurd hdt.symm h3
                · exact hdlt hd2
              · intro v hv hCv
                rcases List.mem_cons.mp hv with rfl | hv2
                · omega
                · exact hmax v hv2 hCv
      · -- strictly smaller count: nothing changes
        have hlt : countTarget students t < F := by omega
        have hstep : modeStep d (m, F) (t, countTarget students t) = (m, F) := by
          simp [modeStep, h1, h2]
        rw [hstep]
        simp only [modeInv]
        right
        refine ⟨⟨u, List.mem_cons_of_mem t hu, hCu⟩, ?_, ?_⟩
        · intro v hv
          rcases List.mem_cons.mp hv with rfl | hv2
          · omega
          · exact hub v hv2
        · rcases hsub with ⟨hdmem, hCd, hmd⟩ | ⟨hmmem, hCm, hdlt, hmax⟩
          · exact Or.inl ⟨List.mem_cons_of_mem t hdmem, hCd, hmd⟩
          · refine Or.inr ⟨List.mem_cons_of_mem t hmmem, hCm, ?_, ?_⟩
            · intro hd
              rcases List.mem_cons.mp hd with hdt | hd2
              · rw [hdt]; exact hlt
              · exact hdlt hd2
            · intro v hv hCv
              rcases List.mem_cons.mp hv with rfl | hv2
              · omega
              · exact hmax v hv2 hCv

/-- Folding the entries of a block of unseen keys preserves the fold
invariant, accumulating the processed keys. -/
theorem modeFold_go (students : List Student) (d : Int) (keys : List Int) :
    ∀ (seen : List Int) (p : Int × Nat),
      keys.Nodup → (∀ t, t ∈ keys → ¬ t ∈ seen) →
      (∀ t, t ∈ keys → 1 ≤ countTarget students t) →
      modeInv students d seen p →
      modeInv students d (keys.reverse ++ seen)
        ((keys.map fun t => (t, countTarget students t)).foldl (modeStep d) p) := by
  induction keys with
  | nil => intro seen p _ _ _ h; simpa using h
  | cons t rest ih =>
    intro seen p hnd hdisj hpos h
    obtain ⟨m, F⟩ := p
    have hstep := modeInv_step students d seen m F t
      (hdisj t (List.mem_cons_self t rest)) (hpos t (List.mem_cons_self t rest)) h
    have hnd2 := List.nodup_cons.mp hnd
    have hrec := ih (t :: seen) (modeStep d (m, F) (t, countTarget students t))
      hnd2.2
      (fun u hu hmem => by
        rcases List.mem_cons.mp hmem with rfl | hmem2
        · exact hnd2.1 hu
        · exact hdisj u (List.mem_cons_of_mem t hu) hmem2)
      (fun u hu => hpos u (List.mem_cons_of_mem t hu)) hstep
    have heq : (t :: rest).reverse ++ seen = rest.reverse ++ (t :: seen) := by simp
    rw [heq]
    exact hrec

theorem targetKeys_nodup (students : List Student) : (targetKeys students).Nodup :=
  ((List.perm_insertionSort _ _).nodup_iff).mpr (List.nodup_dedup _)

theorem mem_targetKeys (students : List Student) (t : Int) :
    t ∈ targetKeys students ↔ t ∈ students.map fun s => s.target := by
  unfold targetKeys
  rw [(List.perm_insertionSort _ _).mem_iff, List.mem_dedup]

theorem countTarget_pos (students : List Student) (t : Int)
    (h : t ∈ students.map fun s => s.target) : 1 ≤ countTarget students t := by
  rcases List.mem_map.mp h with ⟨s, hs, hst⟩
  have hmem : s ∈ students.filter (fun x => x.target = t) :=
    List.mem_filter.mpr ⟨hs, by simp [hst]⟩
  have hlen := List.length_pos.mpr (List.ne_nil_of_mem hmem)
  unfold countTarget
  omega

/-- Claim C7: for a non-empty student list the reported most frequent
target has maximal count among the occurring targets; when the configured
default target is among the argmax values it is chosen, and otherwise the
largest argmax value is chosen. -/
theorem mostFrequentTarget_spec (students : List Student) (d : Int)
    (h : ¬ students.length = 0) :
    (∃ s, s ∈ students ∧ s.target = mostFrequentTarget d students) ∧
    (∀ s, s ∈ students →
      countTarget students s.target ≤
        countTarget students (mostFrequentTarget d students)) ∧
    (((∃ s, s ∈ students ∧ s.target = d) ∧
      (∀ s, s ∈ students → countTarget students s.target ≤ countTarget students d)) →
      mostFrequentTarget d students = d) ∧
    ((¬ ((∃ s, s ∈ students ∧ s.target = d) ∧
      (∀ s, s ∈ students → countTarget students s.target ≤ countTarget students d))) →
      ∀ t, (∃ s, s ∈ students ∧ s.target = t) →
        (∀ s, s ∈ students → countTarget students s.target ≤ countTarget students t) →
        t ≤ mostFrequentTarget d students) := by
  have hinv := modeFold_go students d (targetKeys students) [] (d, 0)
    (targetKeys_nodup students) (fun t _ hmem => by simp at hmem)
    (fun t htk => countTarget_pos students t ((mem_targetKeys students t).mp htk))
    (Or.inl ⟨rfl, rfl, rfl⟩)
  have hmemkeys : ∀ v : Int,
      v ∈ (targetKeys students).reverse ++ ([] : List Int) ↔
        ∃ s, s ∈ students ∧ s.target = v := by
    intro v
    rw [List.append_nil, List.mem_reverse, mem_targetKeys, List.mem_map]
  cases hfe : ((targetKeys students).map fun t =>
      (t, countTarget students t)).foldl (modeStep d) (d, 0) with
  | mk mode freq =>
    rw [hfe] at hinv
    have hm : mostFrequentTarget d students = mode := by
      unfold mostFrequentTarget
      rw [if_neg h, hfe]
    simp only [modeInv] at hinv
    rcases hinv with ⟨hseen, _, _⟩ | ⟨⟨u, hu, hCu⟩, hub, hsub⟩
    · exfalso
      have hne : students ≠ [] := fun hh => h (by simp [hh])
      obtain ⟨s, hs⟩ := List.exists_mem_of_ne_nil students hne
      have hmem : s.target ∈ (targetKeys students).reverse ++ ([] : List Int) :=
        (hmemkeys s.target).mpr ⟨s, hs, rfl⟩
      rw [hseen] at hmem
      simp at hmem
    · have hCmode : countTarget students mode = freq := by
        rcases hsub with ⟨hdm, hCd, hmd⟩ | ⟨hmm, hCm, _, _⟩
        · rw [hmd]; exact hCd
        · exact hCm
      have hmodemem : ∃ s, s ∈ students ∧ s.target = mode := by
        rcases hsub with ⟨hdm, _, hmd⟩ | ⟨hmm, _, _, _⟩
        · exact (hmemkeys mode).mp (by rw [hmd]; exact hdm)
        · exact (hmemkeys mode).mp hmm
      refine ⟨?_, ?_, ?_, ?_⟩
      · rw [hm]; exact hmodemem
      · intro s hs
        rw [hm, hCmode]
        exact hub s.target ((hmemkeys s.target).mpr ⟨s, hs, rfl⟩)
      · rintro ⟨hdex, hdmax⟩
        rw [hm]
        rcases hsub with ⟨_, _, hmd⟩ | ⟨hmm, hCm, hdlt, _⟩
        · exact hmd
        · exfalso
          have hdm : d ∈ (targetKeys students).reverse ++ ([] : List Int) :=
            (hmemkeys d).mpr hdex
          have h1 : countTarget students d < freq := hdlt hdm
          obtain ⟨s2, hs2, hs2t⟩ := (hmemkeys u).mp hu
          have h2 : countTarget students u ≤ countTarget students d := by
            have h3 := hdmax s2 hs2
            rw [hs2t] at h3
            exact h3
          omega
      · intro hnot t htex htmax
        rw [hm]
        rcases hsub with ⟨hdm, hCd, hmd⟩ | ⟨hmm, hCm, hdlt, hmax⟩
        · exfalso
          apply hnot
          refine ⟨(hmemkeys d).mp hdm, ?_⟩
          intro s hs
          rw [hCd]
          exact hub s.target ((hmemkeys s.target).mpr ⟨s, hs, rfl⟩)
        · have htk : t ∈ (targetKeys students).reverse ++ ([] : List Int) :=
            (hmemkeys t).mpr htex
          have h1 : countTarget students t ≤ freq := hub t htk
          obtain ⟨s2, hs2, hs2t⟩ := (hmemkeys u).mp hu
          have h2 : countTarget students u ≤ countTarget students t := by
            have h3 := htmax s2 hs2
            rw [hs2t] at h3
            exact h3
          have h3 : countTarget students t = freq := by omega
          exact hmax t htk h3

theorem mostFrequentTarget_spec_witness :
    ¬ ([⟨1, "A", 2⟩, ⟨2, "B", 3⟩, ⟨3, "C", 3⟩] : List Student).length = 0 ∧
    countTarget [⟨1, "A", 2⟩, ⟨2, "B", 3⟩, ⟨3, "C", 3⟩] 2 ≤
      countTarget [⟨1, "A", 2⟩, ⟨2, "B", 3⟩, ⟨3, "C", 3⟩]
        (mostFrequentTarget 6 [⟨1, "A", 2⟩, ⟨2, "B", 3⟩, ⟨3, "C", 3⟩]) :=
  ⟨by decide,
   (mostFrequentTarget_spec [⟨1, "A", 2⟩, ⟨2, "B", 3⟩, ⟨3, "C", 3⟩] 6
      (by decide)).2.1 ⟨1, "A", 2⟩ (by decide)⟩
